import Mathlib

/-!
Shallow embedding of `src/git_digest/utils/git.py` (git-digest).

Strings are modelled as `List Char`; Python truthiness of a string is
non-emptiness; `datetime` values are modelled by their integer timestamps
(`datetime.fromtimestamp` is strictly monotone, so all date comparisons
are preserved).  The GitPython layer (`Repo`, `iter_commits`, diffs,
trees) is modelled by an explicit environment: a map from repository
path to the repository's raw commit log (in `iter_commits` order,
newest first), together with git's date-phrase parser as an abstract
function.  `Repo(path)` raising (missing/corrupt repository) is
modelled by the map returning `none`, and fallible retrieval returns
`Except`.
-/

namespace GitDigest

abbrev Str := List Char

/-- Python `str.lower()`. -/
def lowerStr (s : Str) : Str := s.map Char.toLower

/-- `needle` is a prefix of `hay` (Boolean). -/
def isPrefixB : Str → Str → Bool
  | [], _ => true
  | _ :: _, [] => false
  | a :: as, b :: bs => a == b && isPrefixB as bs

/-- Python's substring containment `needle in hay`. -/
def isSubstrB (needle hay : Str) : Bool :=
  match hay with
  | [] => isPrefixB needle []
  | _ :: t => isPrefixB needle hay || isSubstrB needle t

/-- Python `str.strip()` (whitespace trim on both ends). -/
def stripStr (s : Str) : Str :=
  ((s.dropWhile Char.isWhitespace).reverse.dropWhile Char.isWhitespace).reverse

/-- `Path(p).name`: the final path component. -/
def baseName (p : Str) : Str := ((p.splitOn '/').getLastD [])

/-- `Path(p) / ".git"`. -/
def joinGit (p : Str) : Str := p ++ ("/.git".data)

/-- The `GitCommit` dataclass. -/
structure GitCommit where
  hash : Str
  author : Str
  email : Str
  date : Int
  message : Str
  files_changed : List Str
  repo_name : Str
deriving DecidableEq, Repr

/-- The author-identity key `f"{commit.author} <{commit.email}>"`. -/
def authorKey (c : GitCommit) : Str :=
  c.author ++ (" <".data) ++ c.email ++ (">".data)

/-- One entry of `commit.diff(commit.parents[0])`. -/
structure DiffEntry where
  a_path : Option Str
  b_path : Option Str
deriving DecidableEq, Repr

/-- One item yielded by `commit.tree.traverse()`; `itemType` is
`getattr(item, "type", None)` and `path` is `getattr(item, "path", "")`. -/
structure TreeItem where
  itemType : Option Str
  path : Str
deriving DecidableEq, Repr

/-- A raw commit as exposed by GitPython's `iter_commits`. -/
structure RawCommit where
  hexsha : Str
  authorName : Option Str
  authorEmail : Option Str
  committedDate : Int
  message : Str
  hasParents : Bool
  parentDiff : List DiffEntry
  treeItems : List TreeItem
deriving DecidableEq, Repr

/-- A repository: its commit log in `iter_commits` order (newest first). -/
structure RepoData where
  log : List RawCommit
deriving DecidableEq, Repr

/-- The GitPython/system environment: which paths hold repositories
(`none` models `Repo(path)` raising), and git's free-form date parser
(timestamp denotation of phrases such as `"7 days ago"`). -/
structure GitEnv where
  repos : Str → Option RepoData
  parseDate : Str → Int

/-- The paths contributed by one diff entry: `a_path` when truthy, then
`b_path` when truthy and `!=` `a_path`. -/
def diffPaths (d : DiffEntry) : List Str :=
  (match d.a_path with
   | some a => if a.isEmpty then [] else [a]
   | none => []) ++
  (match d.b_path with
   | some b => if b.isEmpty || (some b == d.a_path) then [] else [b]
   | none => [])

/-- The `files_changed` computation shared by `get_commits` and
`get_recent_commits_by_count`. -/
def filesChanged (c : RawCommit) : List Str :=
  if c.hasParents then
    (c.parentDiff.map diffPaths).flatten
  else
    (c.treeItems.filterMap fun item =>
      if item.itemType == some ("blob".data) && !item.path.isEmpty
      then some item.path else none)

/-- Construction of a `GitCommit` from a raw commit (shared body of the
two retrieval loops). -/
def toGitCommit (repo_name : Str) (c : RawCommit) : GitCommit :=
  { hash := c.hexsha
    author := match c.authorName with
              | some a => if a.isEmpty then "Unknown".data else a
              | none => "Unknown".data
    email := match c.authorEmail with
             | some e => if e.isEmpty then "unknown@example.com".data else e
             | none => "unknown@example.com".data
    date := c.committedDate
    message := stripStr c.message
    files_changed := filesChanged c
    repo_name := repo_name }

/-- Python truthiness of an optional string argument. -/
def truthy : Option Str → Bool
  | some s => !s.isEmpty
  | none => false

/-- Does a commit pass the `since` bound handed to `iter_commits`?
(`kwargs["since"]` is only set when the string is truthy.) -/
def sinceOk (env : GitEnv) (since : Option Str) (d : Int) : Bool :=
  match since with
  | some s => if s.isEmpty then true else env.parseDate s ≤ d
  | none => true

/-- Does a commit pass the `until` bound handed to `iter_commits`? -/
def untilOk (env : GitEnv) (untl : Option Str) (d : Int) : Bool :=
  match untl with
  | some s => if s.isEmpty then true else d ≤ env.parseDate s
  | none => true

/-- `get_commits(repo_path, since, until)`. -/
def get_commits (env : GitEnv) (repo_path : Str)
    (since untl : Option Str) : Except Str (List GitCommit) :=
  match env.repos repo_path with
  | none => .error ("bad repository".data)
  | some r =>
      .ok (((r.log.filter fun c =>
          sinceOk env since c.committedDate &&
          untilOk env untl c.committedDate).map
        (toGitCommit (baseName repo_path))))

/-- `f"{days} days ago"`. -/
def daysAgoStr (days : Nat) : Str := (toString days).data ++ (" days ago".data)

/-- `get_recent_commits(repo_path, days)`. -/
def get_recent_commits (env : GitEnv) (repo_path : Str) (days : Nat) :
    Except Str (List GitCommit) :=
  get_commits env repo_path (some (daysAgoStr days)) none

/-- `get_recent_commits_by_count(repo_path, count)`:
`iter_commits(max_count=count)`. -/
def get_recent_commits_by_count (env : GitEnv) (repo_path : Str)
    (count : Nat) : Except Str (List GitCommit) :=
  match env.repos repo_path with
  | none => .error ("bad repository".data)
  | some r => .ok ((r.log.take count).map (toGitCommit (baseName repo_path)))

/-- `process_single_repository`: mode dispatch with precedence
count > days > since/until > default. -/
def process_single_repository (env : GitEnv) (repo_path : Str)
    (since untl : Option Str) (days : Option Nat) (count : Option Nat) :
    Except Str (List GitCommit) :=
  match count with
  | some n => get_recent_commits_by_count env repo_path n
  | none =>
    match days with
    | some d => get_recent_commits env repo_path d
    | none =>
      if truthy since || truthy untl then
        get_commits env repo_path since untl
      else
        get_recent_commits env repo_path 7

/-- Stable descending insertion by `date`: an element is placed after
every already-placed element with a strictly larger date and before the
first one whose date is `≤` its own, so equal dates keep input order. -/
def insertDesc (c : GitCommit) : List GitCommit → List GitCommit
  | [] => [c]
  | x :: xs => if c.date < x.date then x :: insertDesc c xs else c :: x :: xs

/-- Python's stable `list.sort(key=lambda c: c.date, reverse=True)`. -/
def sortDesc : List GitCommit → List GitCommit
  | [] => []
  | c :: cs => insertDesc c (sortDesc cs)

/-- The commits one repository contributes inside the aggregation loop:
the retrieved list, or nothing when retrieval raised (`except` path). -/
def resultOrEmpty (env : GitEnv) (since untl : Option Str)
    (days : Option Nat) (count : Option Nat) (repo_path : Str) :
    List GitCommit :=
  match process_single_repository env repo_path since untl days count with
  | .ok l => l
  | .error _ => []

/-- `aggregate_commits_from_repos`: per-repository retrieval with
failures skipped, concatenation, then the stable descending sort. -/
def aggregate_commits_from_repos (env : GitEnv) (repo_paths : List Str)
    (since untl : Option Str) (days : Option Nat) (count : Option Nat) :
    List GitCommit :=
  sortDesc (repo_paths.foldl
    (fun acc p => acc ++ resultOrEmpty env since untl days count p) [])

/-- The pre-sort concatenation of per-repository results, in input
repository order (failing repositories contribute nothing). -/
def concatRepos (env : GitEnv) (repo_paths : List Str)
    (since untl : Option Str) (days : Option Nat) (count : Option Nat) :
    List GitCommit :=
  (repo_paths.map (resultOrEmpty env since untl days count)).flatten

/-! ### Author filter -/

/-- Python set insertion (`set.add`), with the set represented as a
duplicate-free list in insertion order; only membership is meaningful. -/
def setInsert (s : List Str) (x : Str) : List Str :=
  if x ∈ s then s else s ++ [x]

/-- First-occurrence deduplication, matching the key order of a Python
dict comprehension over a list with possibly repeated keys. -/
def dedupFirst : List Str → List Str
  | [] => []
  | f :: t => f :: (dedupFirst t).filter (fun g => ¬ (g = f))

/-- `{f: set() for f in author_filters}`. -/
def mkMatchDict (fs : List Str) : List (Str × List Str) :=
  (dedupFirst fs).map (fun f => (f, ([] : List Str)))

/-- Dict lookup on the association-list representation. -/
def lookupM (m : List (Str × List Str)) (k : Str) : Option (List Str) :=
  (m.find? (fun kv => kv.1 == k)).map (fun kv => kv.2)

/-- `matches_per_filter[k].add(x)`. -/
def updateAt (m : List (Str × List Str)) (k : Str) (x : Str) :
    List (Str × List Str) :=
  m.map (fun kv => if kv.1 == k then (kv.1, setInsert kv.2 x) else kv)

/-- The lower-cased author info `f"{commit.author} <{commit.email}>".lower()`. -/
def authorInfo (c : GitCommit) : Str := lowerStr (authorKey c)

/-- The first filter (paired with its lower-cased form) matching a
commit's author info — the filter at which the inner loop breaks. -/
def firstMatch (author_filters : List Str) (c : GitCommit) :
    Option (Str × Str) :=
  (author_filters.zip (author_filters.map lowerStr)).find?
    (fun p => isSubstrB p.2 (authorInfo c))

/-- The body of the `for commit in commits` loop. -/
def filterStep (author_filters : List Str)
    (acc : List GitCommit × List (Str × List Str)) (c : GitCommit) :
    List GitCommit × List (Str × List Str) :=
  match firstMatch author_filters c with
  | some p => (acc.1 ++ [c], updateAt acc.2 p.1 (authorKey c))
  | none => acc

/-- `filter_commits_by_authors(commits, author_filters)`. -/
def filter_commits_by_authors (commits : List GitCommit)
    (author_filters : List Str) :
    List GitCommit × List (Str × List Str) :=
  if author_filters.isEmpty then (commits, [])
  else
    commits.foldl (filterStep author_filters) ([], mkMatchDict author_filters)

/-- Does any filter match the commit (case-insensitive substring of the
author-identity key)? -/
def matchesAny (author_filters : List Str) (c : GitCommit) : Bool :=
  author_filters.any (fun f => isSubstrB (lowerStr f) (authorInfo c))

/-- Membership of an author string in the match set of filter `k`. -/
def memEntry (m : List (Str × List Str)) (k x : Str) : Bool :=
  match lookupM m k with
  | some s => decide (x ∈ s)
  | none => false

/-! ### Author grouper -/

/-- Append `c` to the bucket of key `k` in a `defaultdict(list)`,
represented as an association list in key-insertion order. -/
def insertGroup (m : List (Str × List GitCommit)) (k : Str) (c : GitCommit) :
    List (Str × List GitCommit) :=
  match m with
  | [] => [(k, [c])]
  | (k', l) :: t =>
      if k' = k then (k', l ++ [c]) :: t else (k', l) :: insertGroup t k c

/-- `group_commits_by_author(commits)`. -/
def group_commits_by_author (commits : List GitCommit) :
    List (Str × List GitCommit) :=
  commits.foldl (fun m c => insertGroup m (authorKey c) c) []

/-- The bucket of key `k` ( `[]` when the key is absent). -/
def lookupGroup (m : List (Str × List GitCommit)) (k : Str) :
    List GitCommit :=
  match m.find? (fun kv => kv.1 == k) with
  | some kv => kv.2
  | none => []

/-! ### Repository validator -/

/-- The ASCII single-quote character used in the error messages. -/
def quoteCh : Char := Char.ofNat 39

/-- `f"Repository path '{repo_path}' does not exist"`. -/
def errNotExist (p : Str) : Str :=
  ("Repository path ".data) ++ [quoteCh] ++ p ++ [quoteCh] ++
    (" does not exist".data)

/-- `f"'{repo_path}' is not a git repository"`. -/
def errNotRepo (p : Str) : Str :=
  [quoteCh] ++ p ++ [quoteCh] ++ (" is not a git repository".data)

/-- `validate_repositories(repo_paths)` over a filesystem modelled as
the set of existing paths. -/
def validate_repositories (fsExists : Str → Bool) (repo_paths : List Str) :
    List Str × List Str :=
  repo_paths.foldl
    (fun acc p =>
      if ¬ fsExists p then (acc.1, acc.2 ++ [errNotExist p])
      else if ¬ fsExists (joinGit p) then (acc.1, acc.2 ++ [errNotRepo p])
      else (acc.1 ++ [p], acc.2))
    ([], [])

/-- A path is accepted exactly when it exists and holds `.git`. -/
def validPath (fsExists : Str → Bool) (p : Str) : Bool :=
  fsExists p && fsExists (joinGit p)

/-- The error message produced for a rejected path. -/
def errMsg (fsExists : Str → Bool) (p : Str) : Str :=
  if ¬ fsExists p then errNotExist p else errNotRepo p

/-! ### Concrete objects used to exercise the model -/

/-- A commit with the given author name, email and date. -/
def mkCommit (a e : Str) (d : Int) : GitCommit :=
  { hash := "h".data, author := a, email := e, date := d,
    message := [], files_changed := [], repo_name := [] }

def cAB : GitCommit := mkCommit ("ab".data) ("e".data) 0

def cAlice : GitCommit := mkCommit ("Alice Smith".data) ("alice@x.com".data) 2

def cBob : GitCommit := mkCommit ("Bob".data) ("bob@x.com".data) 1

/-- A raw commit with a parent: one diff entry renaming `f.txt` to `g.txt`. -/
def rawA : RawCommit :=
  { hexsha := "a1".data, authorName := some ("Alice".data),
    authorEmail := some ("alice@x.com".data), committedDate := 100,
    message := "  hi  ".data, hasParents := true,
    parentDiff := [{ a_path := some ("f.txt".data),
                     b_path := some ("g.txt".data) }],
    treeItems := [] }

/-- A raw root commit: its tree holds one blob and one non-blob item. -/
def rawB : RawCommit :=
  { hexsha := "b1".data, authorName := none, authorEmail := some [],
    committedDate := 50, message := "init".data, hasParents := false,
    parentDiff := [],
    treeItems := [{ itemType := some ("blob".data), path := "x.py".data },
                  { itemType := none, path := "y".data }] }

def repo1 : RepoData := { log := [rawA, rawB] }

/-- An environment with a single repository at path `r1`. -/
def env1 : GitEnv :=
  { repos := fun p => if p = ("r1".data) then some repo1 else none,
    parseDate := fun _ => 0 }

/-- An environment in which every repository access raises. -/
def env0 : GitEnv := { repos := fun _ => none, parseDate := fun _ => 0 }

/-! ## Lemmas about the stable descending sort -/

lemma insertDesc_perm (c : GitCommit) (l : List GitCommit) :
    List.Perm (insertDesc c l) (c :: l) := by
  induction l with
  | nil => simp [insertDesc]
  | cons x xs ih =>
      by_cases h : c.date < x.date
      · simpa [insertDesc, h] using
          (((ih.cons x)).trans (List.Perm.swap c x xs))
      · simp [insertDesc, h]

lemma sortDesc_perm (l : List GitCommit) : List.Perm (sortDesc l) l := by
  induction l with
  | nil => simp [sortDesc]
  | cons c cs ih =>
      exact (insertDesc_perm c (sortDesc cs)).trans (ih.cons c)

lemma insertDesc_pairwise (c : GitCommit) (l : List GitCommit)
    (hl : l.Pairwise (fun a b => b.date ≤ a.date)) :
    (insertDesc c l).Pairwise (fun a b => b.date ≤ a.date) := by
  induction l with
  | nil => simp [insertDesc]
  | cons x xs ih =>
      rcases List.pairwise_cons.mp hl with ⟨hx, hxs⟩
      by_cases h : c.date < x.date
      · have hrec := ih hxs
        simp only [insertDesc, if_pos h]
        refine List.pairwise_cons.mpr ⟨?_, hrec⟩
        intro z hz
        have hz' : z ∈ c :: xs := (insertDesc_perm c xs).mem_iff.mp hz
        rcases List.mem_cons.mp hz' with rfl | hz''
        · exact le_of_lt h
        · exact hx z hz''
      · simp only [insertDesc, if_neg h]
        refine List.pairwise_cons.mpr ⟨?_, hl⟩
        intro z hz
        rcases List.mem_cons.mp hz with rfl | hz'
        · exact le_of_not_lt h
        · exact le_trans (hx z hz') (le_of_not_lt h)

lemma sortDesc_pairwise (l : List GitCommit) :
    (sortDesc l).Pairwise (fun a b => b.date ≤ a.date) := by
  induction l with
  | nil => simp [sortDesc]
  | cons c cs ih => exact insertDesc_pairwise c (sortDesc cs) ih

lemma filter_insertDesc_ne (c : GitCommit) (dt : Int) (l : List GitCommit)
    (hc : (c.date == dt) = false) :
    (insertDesc c l).filter (fun z => z.date == dt) =
      l.filter (fun z => z.date == dt) := by
  induction l with
  | nil => simp [insertDesc, List.filter, hc]
  | cons x xs ih =>
      by_cases h : c.date < x.date
      · simp only [insertDesc, if_pos h, List.filter]
        rw [ih]
      · simp only [insertDesc, if_neg h, List.filter, hc]

lemma filter_insertDesc_eq (c : GitCommit) (dt : Int) (l : List GitCommit)
    (hc : c.date = dt) :
    (insertDesc c l).filter (fun z => z.date == dt) =
      c :: l.filter (fun z => z.date == dt) := by
  induction l with
  | nil => simp [insertDesc, List.filter, hc]
  | cons x xs ih =>
      by_cases h : c.date < x.date
      · have hx : (x.date == dt) = false := by
          subst hc
          exact beq_false_of_ne (by omega)
        simp only [insertDesc, if_pos h, List.filter, hx]
        exact ih
      · have hrw : insertDesc c (x :: xs) = c :: x :: xs := by
          simp [insertDesc, h]
        rw [hrw]
        simp [List.filter, hc]

lemma sortDesc_stable (l : List GitCommit) (dt : Int) :
    (sortDesc l).filter (fun z => z.date == dt) =
      l.filter (fun z => z.date == dt) := by
  induction l with
  | nil => simp [sortDesc]
  | cons c cs ih =>
      simp only [sortDesc]
      by_cases hc : c.date = dt
      · rw [filter_insertDesc_eq c dt (sortDesc cs) hc, ih]
        simp [List.filter, hc]
      · rw [filter_insertDesc_ne c dt (sortDesc cs) (beq_false_of_ne hc), ih]
        simp [List.filter, beq_false_of_ne hc]

lemma sortDesc_eq_nil_iff (l : List GitCommit) :
    sortDesc l = [] ↔ l = [] := by
  constructor
  · intro h
    have := (sortDesc_perm l).length_eq
    rw [h] at this
    exact List.length_eq_zero.mp this.symm
  · intro h; subst h; rfl

/-! ## Lemmas about aggregation -/

lemma foldl_append_eq (f : Str → List GitCommit) (ps : List Str) :
    ∀ acc : List GitCommit,
      ps.foldl (fun acc p => acc ++ f p) acc = acc ++ (ps.map f).flatten := by
  induction ps with
  | nil => intro acc; simp
  | cons p ps ih =>
      intro acc
      simp only [List.foldl_cons, List.map_cons, List.flatten_cons, ih]
      simp

lemma aggregate_eq_sort_concat (env : GitEnv) (repo_paths : List Str)
    (since untl : Option Str) (days : Option Nat) (count : Option Nat) :
    aggregate_commits_from_repos env repo_paths since untl days count =
      sortDesc (concatRepos env repo_paths since untl days count) := by
  unfold aggregate_commits_from_repos concatRepos
  rw [foldl_append_eq]
  simp

lemma mem_resultOrEmpty (env : GitEnv) (since untl : Option Str)
    (days : Option Nat) (count : Option Nat) (p : Str) (c : GitCommit) :
    c ∈ resultOrEmpty env since untl days count p ↔
      ∃ l, process_single_repository env p since untl days count = .ok l ∧
        c ∈ l := by
  unfold resultOrEmpty
  cases h : process_single_repository env p since untl days count with
  | ok l => simp [h]
  | error e => simp [h]

lemma resultOrEmpty_eq_nil_iff (env : GitEnv) (since untl : Option Str)
    (days : Option Nat) (count : Option Nat) (p : Str) :
    resultOrEmpty env since untl days count p = [] ↔
      ∀ l, process_single_repository env p since untl days count = .ok l →
        l = [] := by
  unfold resultOrEmpty
  cases h : process_single_repository env p since untl days count with
  | ok l => simp [h]
  | error e => simp [h]

/-- C3: for every list of repository paths and selection parameters,
`aggregate_commits_from_repos` is sorted by the `date` field in
descending order, and commits with equal dates appear in the same
relative order as in the concatenation of the per-repository results in
input repository order (the sort is stable on ties). -/
theorem aggregate_sorted_and_stable (env : GitEnv) (repo_paths : List Str)
    (since untl : Option Str) (days : Option Nat) (count : Option Nat) :
    (aggregate_commits_from_repos env repo_paths since untl days
        count).Pairwise (fun a b => b.date ≤ a.date) ∧
    ∀ dt : Int,
      (aggregate_commits_from_repos env repo_paths since untl days
          count).filter (fun c => c.date == dt) =
        (concatRepos env repo_paths since untl days count).filter
          (fun c => c.date == dt) := by
  rw [aggregate_eq_sort_concat]
  exact ⟨sortDesc_pairwise _, fun dt => sortDesc_stable _ dt⟩

/-- C4: aggregation tolerates per-repository failures: a commit is in
the output exactly when some listed repository's retrieval succeeded
with a list containing it (so nothing from a failing repository
appears, and repositories after a failing one are still processed);
dropping a failing head repository leaves the result unchanged; and
the output is empty exactly when every repository failed or returned
no commits. -/
theorem aggregate_partial_failure (env : GitEnv) (since untl : Option Str)
    (days : Option Nat) (count : Option Nat) :
    (∀ (repo_paths : List Str) (c : GitCommit),
      c ∈ aggregate_commits_from_repos env repo_paths since untl days count ↔
        ∃ p ∈ repo_paths, ∃ l,
          process_single_repository env p since untl days count = .ok l ∧
          c ∈ l) ∧
    (∀ (p : Str) (repo_paths : List Str) (e : Str),
      process_single_repository env p since untl days count = .error e →
        aggregate_commits_from_repos env (p :: repo_paths) since untl days
            count =
          aggregate_commits_from_repos env repo_paths since untl days count) ∧
    (∀ repo_paths : List Str,
      aggregate_commits_from_repos env repo_paths since untl days count = []
        ↔ ∀ p ∈ repo_paths, ∀ l,
            process_single_repository env p since untl days count = .ok l →
            l = []) := by
  refine ⟨?_, ?_, ?_⟩
  · intro repo_paths c
    rw [aggregate_eq_sort_concat, (sortDesc_perm _).mem_iff]
    unfold concatRepos
    simp only [List.mem_flatten, List.mem_map]
    constructor
    · rintro ⟨l', ⟨p, hp, rfl⟩, hc⟩
      obtain ⟨l, hok, hcl⟩ := (mem_resultOrEmpty env since untl days count
        p c).mp hc
      exact ⟨p, hp, l, hok, hcl⟩
    · rintro ⟨p, hp, l, hok, hcl⟩
      exact ⟨resultOrEmpty env since untl days count p, ⟨p, hp, rfl⟩,
        (mem_resultOrEmpty env since untl days count p c).mpr ⟨l, hok, hcl⟩⟩
  · intro p repo_paths e h
    rw [aggregate_eq_sort_concat, aggregate_eq_sort_concat]
    have hnil : resultOrEmpty env since untl days count p = [] := by
      unfold resultOrEmpty
      rw [h]
    unfold concatRepos
    simp [hnil]
  · intro repo_paths
    rw [aggregate_eq_sort_concat, sortDesc_eq_nil_iff]
    unfold concatRepos
    rw [List.flatten_eq_nil_iff]
    constructor
    · intro h p hp l hok
      have := h (resultOrEmpty env since untl days count p)
        (List.mem_map_of_mem _ hp)
      exact (resultOrEmpty_eq_nil_iff env since untl days count p).mp this l
        hok
    · intro h l hl
      obtain ⟨p, hp, rfl⟩ := List.mem_map.mp hl
      exact (resultOrEmpty_eq_nil_iff env since untl days count p).mpr
        (h p hp)

/-- Witness for C4: in an environment where every repository access
raises, a failing head repository is skipped and the batch result is
that of the remaining repositories. -/
theorem aggregate_partial_failure_witness :
    aggregate_commits_from_repos env0 (["r".data]) none none none none =
      aggregate_commits_from_repos env0 [] none none none none :=
  (aggregate_partial_failure env0 none none none none).2.1 ("r".data) []
    ("bad repository".data) rfl

/-- C2: when a positive `count` is supplied, `process_single_repository`
ignores `since`, `until` and `days` entirely — the result is exactly
count-only retrieval — and any successful result holds at most `count`
commits. -/
theorem count_mode_ignores_date_bounds (env : GitEnv) (repo_path : Str)
    (since untl : Option Str) (days : Option Nat) (n : Nat) (hn : 0 < n) :
    process_single_repository env repo_path since untl days (some n) =
        get_recent_commits_by_count env repo_path n ∧
    process_single_repository env repo_path since untl days (some n) =
        process_single_repository env repo_path none none none (some n) ∧
    ∀ l, process_single_repository env repo_path since untl days (some n) =
        .ok l → l.length ≤ n := by
  refine ⟨rfl, rfl, ?_⟩
  intro l hl
  unfold process_single_repository get_recent_commits_by_count at hl
  cases h : env.repos repo_path with
  | none => rw [h] at hl; exact absurd hl (by simp)
  | some r =>
      rw [h] at hl
      have : l = (r.log.take n).map (toGitCommit (baseName repo_path)) := by
        exact (Except.ok.injEq _ _).mp hl.symm
      subst this
      simp [List.length_take]

/-- Witness for C2 at a concrete repository, with date bounds supplied
alongside `count = 1`. -/
theorem count_mode_ignores_date_bounds_witness :
    0 < 1 ∧
    (process_single_repository env1 ("r1".data) (some ("2024-01-01".data))
        (some ("2024-12-31".data)) (some 3) (some 1) =
        get_recent_commits_by_count env1 ("r1".data) 1 ∧
    process_single_repository env1 ("r1".data) (some ("2024-01-01".data))
        (some ("2024-12-31".data)) (some 3) (some 1) =
        process_single_repository env1 ("r1".data) none none none (some 1) ∧
    ∀ l, process_single_repository env1 ("r1".data)
        (some ("2024-01-01".data)) (some ("2024-12-31".data)) (some 3)
        (some 1) = .ok l → l.length ≤ 1) :=
  ⟨by decide,
   count_mode_ignores_date_bounds env1 ("r1".data)
     (some ("2024-01-01".data)) (some ("2024-12-31".data)) (some 3) 1
     (by decide)⟩

/-- C8: `process_single_repository` with `count = none` and
`days = some d` equals retrieval bounded only below by the phrase
`"{d} days ago"` (no upper bound), for any supplied `since`/`until`;
and with all four selection parameters absent it equals days mode with
`days = 7`. -/
theorem mode_dispatch_equivalences (env : GitEnv) (repo_path : Str)
    (since untl : Option Str) (d : Nat) :
    process_single_repository env repo_path since untl (some d) none =
        get_commits env repo_path (some (daysAgoStr d)) none ∧
    process_single_repository env repo_path none none none none =
        process_single_repository env repo_path none none (some 7) none :=
  ⟨rfl, rfl⟩

/-! ## Lemmas about the repository validator -/

lemma length_filter_add_length_filter_not {α : Type} (p : α → Bool)
    (l : List α) :
    (l.filter p).length + (l.filter (fun a => !p a)).length = l.length := by
  induction l with
  | nil => simp
  | cons a t ih =>
      cases h : p a <;> simp [List.filter, h] <;> omega

lemma validate_foldl (fsExists : Str → Bool) (ps : List Str) :
    ∀ acc : List Str × List Str,
      ps.foldl
        (fun acc p =>
          if ¬ fsExists p then (acc.1, acc.2 ++ [errNotExist p])
          else if ¬ fsExists (joinGit p) then
            (acc.1, acc.2 ++ [errNotRepo p])
          else (acc.1 ++ [p], acc.2)) acc =
      (acc.1 ++ ps.filter (validPath fsExists),
       acc.2 ++ (ps.filter (fun p => !validPath fsExists p)).map
         (errMsg fsExists)) := by
  induction ps with
  | nil => intro acc; simp
  | cons p t ih =>
      intro acc
      simp only [List.foldl_cons, ih]
      by_cases h1 : fsExists p
      · by_cases h2 : fsExists (joinGit p)
        · simp [h1, h2, validPath, errMsg, List.filter_cons]
        · simp [h1, h2, validPath, errMsg, List.filter_cons]
      · simp [h1, validPath, errMsg, List.filter_cons]

/-- C7: `validate_repositories` partitions its input exhaustively: the
valid paths are exactly the input paths that exist and carry `.git`,
in input order; every rejected path yields exactly one error message
(`errNotExist` for a missing path, `errNotRepo` otherwise), in input
order; and the two output lengths sum to the input length. -/
theorem validate_repositories_partition (fsExists : Str → Bool)
    (repo_paths : List Str) :
    (validate_repositories fsExists repo_paths).1 =
        repo_paths.filter (validPath fsExists) ∧
    (validate_repositories fsExists repo_paths).2 =
        (repo_paths.filter (fun p => !validPath fsExists p)).map
          (errMsg fsExists) ∧
    (validate_repositories fsExists repo_paths).1.length +
        (validate_repositories fsExists repo_paths).2.length =
      repo_paths.length := by
  have h := validate_foldl fsExists repo_paths ([], [])
  unfold validate_repositories
  rw [h]
  refine ⟨by simp, by simp, ?_⟩
  simp only [List.nil_append, List.length_map]
  exact length_filter_add_length_filter_not (validPath fsExists) repo_paths

/-! ## Lemmas about the author grouper -/

lemma lookupGroup_insertGroup_self (m : List (Str × List GitCommit))
    (k : Str) (c : GitCommit) :
    lookupGroup (insertGroup m k c) k = lookupGroup m k ++ [c] := by
  induction m with
  | nil => simp [insertGroup, lookupGroup, List.find?]
  | cons kv t ih =>
      obtain ⟨k', l⟩ := kv
      by_cases h : k' = k
      · subst h
        simp [insertGroup, lookupGroup, List.find?]
      · simp only [insertGroup, if_neg h]
        simp only [lookupGroup, List.find?, beq_eq_false_iff_ne.mpr h]
        exact ih

lemma lookupGroup_insertGroup_ne (m : List (Str × List GitCommit))
    (k k' : Str) (c : GitCommit) (h : k' ≠ k) :
    lookupGroup (insertGroup m k c) k' = lookupGroup m k' := by
  induction m with
  | nil =>
      simp [insertGroup, lookupGroup, List.find?,
        beq_eq_false_iff_ne.mpr (Ne.symm h)]
  | cons kv t ih =>
      obtain ⟨k'', l⟩ := kv
      by_cases hk : k'' = k
      · subst hk
        simp [insertGroup, lookupGroup, List.find?,
          beq_eq_false_iff_ne.mpr (Ne.symm h)]
      · simp only [insertGroup, if_neg hk]
        by_cases hk' : k'' = k'
        · subst hk'
          simp [lookupGroup, List.find?]
        · simp only [lookupGroup, List.find?,
            beq_eq_false_iff_ne.mpr hk']
          exact ih

lemma lookupGroup_foldl (cs : List GitCommit) :
    ∀ (m : List (Str × List GitCommit)) (k : Str),
      lookupGroup (cs.foldl (fun m c => insertGroup m (authorKey c) c) m) k =
        lookupGroup m k ++ cs.filter (fun c => authorKey c == k) := by
  induction cs with
  | nil => intro m k; simp
  | cons c t ih =>
      intro m k
      simp only [List.foldl_cons, ih, List.filter_cons]
      by_cases h : authorKey c = k
      · subst h
        rw [lookupGroup_insertGroup_self]
        simp
      · rw [lookupGroup_insertGroup_ne m (authorKey c) k c (Ne.symm h)]
        simp [beq_eq_false_iff_ne.mpr h]

/-- C6: `group_commits_by_author` buckets are exactly the input
sub-sequences with the given author key: each bucket preserves input
order, every commit lands in the bucket of its own key and only there
(so buckets are pairwise disjoint), and the union of all buckets is the
input set. -/
theorem group_commits_by_author_partition (commits : List GitCommit) :
    (∀ k, lookupGroup (group_commits_by_author commits) k =
        commits.filter (fun c => authorKey c == k)) ∧
    (∀ c ∈ commits,
        c ∈ lookupGroup (group_commits_by_author commits) (authorKey c)) ∧
    (∀ k c, c ∈ lookupGroup (group_commits_by_author commits) k →
        authorKey c = k) ∧
    (∀ k₁ k₂ c, c ∈ lookupGroup (group_commits_by_author commits) k₁ →
        c ∈ lookupGroup (group_commits_by_author commits) k₂ → k₁ = k₂) ∧
    (∀ c, c ∈ commits ↔
        ∃ k, c ∈ lookupGroup (group_commits_by_author commits) k) := by
  have hchar : ∀ k, lookupGroup (group_commits_by_author commits) k =
      commits.filter (fun c => authorKey c == k) := by
    intro k
    unfold group_commits_by_author
    rw [lookupGroup_foldl]
    simp [lookupGroup]
  have hmem : ∀ k c,
      c ∈ lookupGroup (group_commits_by_author commits) k →
        authorKey c = k := by
    intro k c hc
    rw [hchar k] at hc
    exact beq_iff_eq.mp ((List.mem_filter.mp hc).2)
  refine ⟨hchar, ?_, hmem, ?_, ?_⟩
  · intro c hc
    rw [hchar (authorKey c)]
    exact List.mem_filter.mpr ⟨hc, beq_self_eq_true _⟩
  · intro k₁ k₂ c h₁ h₂
    rw [← hmem k₁ c h₁, ← hmem k₂ c h₂]
  · intro c
    constructor
    · intro hc
      refine ⟨authorKey c, ?_⟩
      rw [hchar (authorKey c)]
      exact List.mem_filter.mpr ⟨hc, beq_self_eq_true _⟩
    · rintro ⟨k, hk⟩
      rw [hchar k] at hk
      exact List.mem_filter.mp hk |>.1

/-- Witness for C6: on a two-commit list, the first commit lies in the
bucket of its own author-identity key. -/
theorem group_commits_by_author_partition_witness :
    cAlice ∈ [cAlice, cBob] ∧
    cAlice ∈ lookupGroup (group_commits_by_author [cAlice, cBob])
      (authorKey cAlice) :=
  ⟨by decide,
   (group_commits_by_author_partition [cAlice, cBob]).2.1 cAlice
     (by decide)⟩

/-! ## Lemmas about the author filter -/

lemma mem_setInsert (s : List Str) (x y : Str) :
    y ∈ setInsert s x ↔ y ∈ s ∨ y = x := by
  unfold setInsert
  by_cases h : x ∈ s
  · simp only [if_pos h]
    constructor
    · exact Or.inl
    · rintro (hy | rfl)
      · exact hy
      · exact h
  · simp [if_neg h]

lemma memEntry_iff (m : List (Str × List Str)) (k x : Str) :
    memEntry m k x = true ↔ ∃ s, lookupM m k = some s ∧ x ∈ s := by
  unfold memEntry
  cases h : lookupM m k with
  | some s => simp [h]
  | none => simp [h]

lemma firstMatch_isSome (fs : List Str) (c : GitCommit) :
    (firstMatch fs c).isSome = matchesAny fs c := by
  induction fs with
  | nil => rfl
  | cons f t ih =>
      simp only [firstMatch, matchesAny, List.map_cons, List.zip_cons_cons,
        List.any_cons] at *
      cases h : isSubstrB (lowerStr f) (authorInfo c) with
      | true => rw [List.find?_cons_of_pos _ (by simpa using h)]; simp [h]
      | false =>
          rw [List.find?_cons_of_neg _ (by simpa using h)]
          simp only [h, Bool.false_or]
          exact ih

lemma mem_zip_map_lower (fs : List Str) (p : Str × Str)
    (h : p ∈ fs.zip (fs.map lowerStr)) :
    p.1 ∈ fs ∧ p.2 = lowerStr p.1 := by
  induction fs with
  | nil => simp at h
  | cons f t ih =>
      simp only [List.map_cons, List.zip_cons_cons, List.mem_cons] at h
      rcases h with rfl | h
      · simp
      · obtain ⟨h1, h2⟩ := ih h
        exact ⟨List.mem_cons_of_mem _ h1, h2⟩

lemma firstMatch_spec (fs : List Str) (c : GitCommit) (p : Str × Str)
    (h : firstMatch fs c = some p) :
    p.1 ∈ fs ∧ p.2 = lowerStr p.1 ∧
      isSubstrB (lowerStr p.1) (authorInfo c) = true := by
  have hmem := List.mem_of_find?_eq_some h
  have hpred := List.find?_some h
  obtain ⟨h1, h2⟩ := mem_zip_map_lower fs p hmem
  refine ⟨h1, h2, ?_⟩
  rw [← h2]
  exact hpred

lemma foldl_filterStep_fst (fs : List Str) (cs : List GitCommit) :
    ∀ (l : List GitCommit) (m : List (Str × List Str)),
      (cs.foldl (filterStep fs) (l, m)).1 =
        l ++ cs.filter (fun c => (firstMatch fs c).isSome) := by
  induction cs with
  | nil => intro l m; simp
  | cons c t ih =>
      intro l m
      simp only [List.foldl_cons, List.filter_cons]
      cases h : firstMatch fs c with
      | none =>
          simp only [filterStep, h, Option.isSome_none]
          rw [ih]
          simp
      | some p =>
          simp only [filterStep, h, Option.isSome_some]
          rw [ih]
          simp

lemma lookupM_cons (a : Str × List Str) (t : List (Str × List Str))
    (f : Str) :
    lookupM (a :: t) f = if a.1 == f then some a.2 else lookupM t f := by
  unfold lookupM
  cases h : (a.1 == f) with
  | true =>
      rw [if_pos rfl, @List.find?_cons_of_pos _ (fun kv => kv.1 == f) a t h]
      rfl
  | false =>
      rw [if_neg (by simp),
        @List.find?_cons_of_neg _ (fun kv => kv.1 == f) a t (by simp [h])]

lemma updateAt_cons (k₀ : Str) (v₀ : List Str)
    (t : List (Str × List Str)) (k x : Str) :
    updateAt ((k₀, v₀) :: t) k x =
      (if k₀ = k then (k₀, setInsert v₀ x) else (k₀, v₀)) ::
        updateAt t k x := by
  unfold updateAt
  by_cases h : k₀ = k
  · simp [h]
  · simp [beq_eq_false_iff_ne.mpr h, h]

lemma lookupM_updateAt (m : List (Str × List Str)) (k x f : Str) :
    lookupM (updateAt m k x) f =
      (lookupM m f).map (fun v => if f = k then setInsert v x else v) := by
  induction m with
  | nil => simp [updateAt, lookupM]
  | cons kv t ih =>
      obtain ⟨k₀, v₀⟩ := kv
      rw [updateAt_cons]
      by_cases hk : k₀ = k
      · subst hk
        rw [if_pos rfl]
        by_cases hf : k₀ = f
        · subst hf
          rw [lookupM_cons, lookupM_cons]
          simp
        · rw [lookupM_cons, lookupM_cons, if_neg (by simp [hf]),
            if_neg (by simp [hf])]
          exact ih
      · rw [if_neg hk]
        by_cases hf : k₀ = f
        · subst hf
          rw [lookupM_cons, lookupM_cons, if_pos (by simp), if_pos (by simp)]
          simp [hk]
        · rw [lookupM_cons, lookupM_cons, if_neg (by simp [hf]),
            if_neg (by simp [hf])]
          exact ih

lemma lookupM_updateAt_ne (m : List (Str × List Str)) (k x f : Str)
    (h : f ≠ k) : lookupM (updateAt m k x) f = lookupM m f := by
  rw [lookupM_updateAt]
  cases lookupM m f with
  | some s => simp [if_neg h]
  | none => simp

lemma isSome_lookupM_updateAt (m : List (Str × List Str)) (k x f : Str) :
    (lookupM (updateAt m k x) f).isSome = (lookupM m f).isSome := by
  rw [lookupM_updateAt]
  cases lookupM m f <;> simp

lemma foldl_filterStep_isSome (fs : List Str) (cs : List GitCommit) :
    ∀ (l : List GitCommit) (m : List (Str × List Str)) (f : Str),
      (lookupM (cs.foldl (filterStep fs) (l, m)).2 f).isSome =
        (lookupM m f).isSome := by
  induction cs with
  | nil => intro l m f; rfl
  | cons c t ih =>
      intro l m f
      simp only [List.foldl_cons]
      cases h : firstMatch fs c with
      | none => simp only [filterStep, h]; rw [ih]
      | some p =>
          simp only [filterStep, h]
          rw [ih]
          exact isSome_lookupM_updateAt m p.1 (authorKey c) f

lemma foldl_filterStep_not_chosen (fs : List Str) (cs : List GitCommit) :
    ∀ (l : List GitCommit) (m : List (Str × List Str)) (f : Str),
      (∀ c ∈ cs, ∀ p, firstMatch fs c = some p → p.1 ≠ f) →
      lookupM (cs.foldl (filterStep fs) (l, m)).2 f = lookupM m f := by
  induction cs with
  | nil => intro l m f _; rfl
  | cons c t ih =>
      intro l m f hnc
      simp only [List.foldl_cons]
      cases h : firstMatch fs c with
      | none =>
          simp only [filterStep, h]
          exact ih l m f (fun c' hc' => hnc c' (List.mem_cons_of_mem _ hc'))
      | some p =>
          simp only [filterStep, h]
          rw [ih _ _ f (fun c' hc' => hnc c' (List.mem_cons_of_mem _ hc'))]
          exact lookupM_updateAt_ne m p.1 (authorKey c) f
            (fun hf => hnc c (List.mem_cons_self c t) p h hf.symm)

lemma foldl_filterStep_memEntry (fs : List Str) (cs : List GitCommit) :
    ∀ (l : List GitCommit) (m : List (Str × List Str)) (f x : Str),
      (lookupM m f).isSome = true →
      (memEntry (cs.foldl (filterStep fs) (l, m)).2 f x = true ↔
        memEntry m f x = true ∨
        ∃ c ∈ cs, firstMatch fs c = some (f, lowerStr f) ∧
          x = authorKey c) := by
  induction cs with
  | nil => intro l m f x _; simp
  | cons c t ih =>
      intro l m f x hsome
      simp only [List.foldl_cons]
      cases h : firstMatch fs c with
      | none =>
          simp only [filterStep, h]
          rw [ih l m f x hsome]
          have hC : ¬ (firstMatch fs c = some (f, lowerStr f)) := by
            rw [h]
            intro he
            exact Option.noConfusion he
          rw [List.exists_mem_cons_iff
            (fun c' => firstMatch fs c' = some (f, lowerStr f) ∧
              x = authorKey c') c t]
          tauto
      | some p =>
          obtain ⟨p1, p2⟩ := p
          have hspec := firstMatch_spec fs c (p1, p2) h
          simp only [filterStep, h]
          have hsome' :
              (lookupM (updateAt m p1 (authorKey c)) f).isSome = true := by
            rw [isSome_lookupM_updateAt]
            exact hsome
          rw [ih _ _ f x hsome']
          rw [List.exists_mem_cons_iff
            (fun c' => firstMatch fs c' = some (f, lowerStr f) ∧
              x = authorKey c') c t]
          by_cases hpf : p1 = f
          · subst hpf
            have hp2 : p2 = lowerStr p1 := hspec.2.1
            subst hp2
            obtain ⟨v, hv⟩ := Option.isSome_iff_exists.mp hsome
            have hlk : lookupM (updateAt m p1 (authorKey c)) p1 =
                some (setInsert v (authorKey c)) := by
              rw [lookupM_updateAt, hv]
              simp
            have hme : memEntry (updateAt m p1 (authorKey c)) p1 x = true ↔
                x ∈ v ∨ x = authorKey c := by
              simp [memEntry, hlk, mem_setInsert]
            have hmfx : memEntry m p1 x = true ↔ x ∈ v := by
              simp [memEntry, hv]
            rw [hme, hmfx, h]
            simp only [Option.some.injEq, Prod.mk.injEq, true_and,
              eq_self_iff_true]
            tauto
          · have hmun : memEntry (updateAt m p1 (authorKey c)) f x =
                memEntry m f x := by
              unfold memEntry
              rw [lookupM_updateAt_ne m p1 (authorKey c) f
                (fun hf => hpf hf.symm)]
            have hC : ¬ (firstMatch fs c = some (f, lowerStr f)) := by
              rw [h]
              intro he
              injection he with hpair
              exact hpf (congrArg Prod.fst hpair)
            rw [hmun]
            tauto

lemma mem_dedupFirst (fs : List Str) (f : Str) :
    f ∈ dedupFirst fs ↔ f ∈ fs := by
  induction fs with
  | nil => simp [dedupFirst]
  | cons g t ih =>
      simp only [dedupFirst, List.mem_cons]
      constructor
      · rintro (rfl | hf)
        · exact Or.inl rfl
        · exact Or.inr (ih.mp (List.mem_of_mem_filter hf))
      · rintro (rfl | hf)
        · exact Or.inl rfl
        · by_cases hgf : f = g
          · exact Or.inl hgf
          · exact Or.inr (List.mem_filter.mpr ⟨ih.mpr hf, by simpa using hgf⟩)

lemma lookupM_keys_map (ks : List Str) (f : Str) (h : f ∈ ks) :
    lookupM (ks.map (fun g => (g, ([] : List Str)))) f = some [] := by
  induction ks with
  | nil => simp at h
  | cons k t ih =>
      simp only [List.map_cons]
      rw [lookupM_cons]
      by_cases hk : k = f
      · rw [if_pos (by simpa using hk)]
      · rw [if_neg (by simpa using hk)]
        rcases List.mem_cons.mp h with h1 | h2
        · exact absurd h1.symm hk
        · exact ih h2

lemma lookupM_mkMatchDict (fs : List Str) (f : Str) (h : f ∈ fs) :
    lookupM (mkMatchDict fs) f = some [] :=
  lookupM_keys_map (dedupFirst fs) f ((mem_dedupFirst fs f).mpr h)

lemma filter_commits_eq_foldl (commits : List GitCommit)
    (author_filters : List Str) (h : author_filters ≠ []) :
    filter_commits_by_authors commits author_filters =
      commits.foldl (filterStep author_filters)
        ([], mkMatchDict author_filters) := by
  unfold filter_commits_by_authors
  rw [if_neg (by simpa using h)]

lemma filter_commits_fst (commits : List GitCommit)
    (author_filters : List Str) (h : author_filters ≠ []) :
    (filter_commits_by_authors commits author_filters).1 =
      commits.filter (matchesAny author_filters) := by
  rw [filter_commits_eq_foldl commits author_filters h,
    foldl_filterStep_fst]
  simp only [List.nil_append]
  exact List.filter_congr (fun c _ => firstMatch_isSome author_filters c)

/-- C5: with a non-empty filter list, the retained commits are exactly
the input commits (in input order, each occurrence kept once) whose
lower-cased author-identity key contains some lower-cased filter as a
substring; no match across all commits yields `[]`, not an error. -/
theorem author_filter_matching_semantics (commits : List GitCommit)
    (author_filters : List Str) (h : author_filters ≠ []) :
    (filter_commits_by_authors commits author_filters).1 =
        commits.filter (matchesAny author_filters) ∧
    (∀ c, c ∈ (filter_commits_by_authors commits author_filters).1 ↔
        c ∈ commits ∧ matchesAny author_filters c = true) ∧
    ((∀ c ∈ commits, matchesAny author_filters c = false) →
        (filter_commits_by_authors commits author_filters).1 = []) := by
  have heq := filter_commits_fst commits author_filters h
  refine ⟨heq, ?_, ?_⟩
  · intro c
    rw [heq]
    exact List.mem_filter
  · intro hnone
    rw [heq, List.filter_eq_nil_iff]
    intro c hc
    simp [hnone c hc]

/-- Witness for C5 on a two-commit list and the filter `"alice"`. -/
theorem author_filter_matching_semantics_witness :
    (["alice".data] : List Str) ≠ [] ∧
    ((filter_commits_by_authors [cAlice, cBob] ["alice".data]).1 =
        List.filter (matchesAny ["alice".data]) [cAlice, cBob] ∧
    (∀ c, c ∈ (filter_commits_by_authors [cAlice, cBob]
        ["alice".data]).1 ↔
        c ∈ [cAlice, cBob] ∧ matchesAny ["alice".data] c = true) ∧
    ((∀ c ∈ [cAlice, cBob], matchesAny ["alice".data] c = false) →
        (filter_commits_by_authors [cAlice, cBob] ["alice".data]).1 =
          [])) :=
  ⟨by decide,
   author_filter_matching_semantics [cAlice, cBob] ["alice".data]
     (by decide)⟩

/-- C10: with an empty filter list the function returns the commit
sequence unchanged together with an empty match mapping. -/
theorem author_filter_empty_filters_identity (commits : List GitCommit) :
    filter_commits_by_authors commits [] = (commits, []) := rfl

/-- C1 as it stands is false: `"ab <e>"` contains the two distinct
filters `"a"` and `"b"` as substrings, the commit appears once in the
filtered output, but its author string is recorded only under `"a"` —
the match set of `"b"` stays empty. -/
theorem matches_by_filter_both_recorded_cex :
    ("a".data : Str) ≠ ("b".data) ∧
    isSubstrB (lowerStr ("a".data)) (lowerStr (authorKey cAB)) = true ∧
    isSubstrB (lowerStr ("b".data)) (lowerStr (authorKey cAB)) = true ∧
    (filter_commits_by_authors [cAB] ["a".data, "b".data]).1 = [cAB] ∧
    memEntry (filter_commits_by_authors [cAB] ["a".data, "b".data]).2
      ("a".data) (authorKey cAB) = true ∧
    memEntry (filter_commits_by_authors [cAB] ["a".data, "b".data]).2
      ("b".data) (authorKey cAB) = false := by
  decide

/-- C1 (amended): with a non-empty filter list, every original filter
string is a key of the match mapping; a filter matching no commit maps
to an empty set; a commit matched by several filters is recorded only
under the first matching filter in filter-list order (its match set
receives the commit's `"author <email>"` string, and a string sits in a
filter's match set exactly when that filter was some commit's first
match); and each matching commit occurrence appears exactly once in the
filtered output. -/
theorem matches_by_filter_first_wins (commits : List GitCommit)
    (author_filters : List Str) (h : author_filters ≠ []) :
    (∀ f ∈ author_filters,
      (lookupM (filter_commits_by_authors commits author_filters).2
        f).isSome = true) ∧
    (∀ f ∈ author_filters,
      (∀ c ∈ commits, isSubstrB (lowerStr f) (authorInfo c) = false) →
      lookupM (filter_commits_by_authors commits author_filters).2 f =
        some []) ∧
    (∀ f ∈ author_filters, ∀ x,
      memEntry (filter_commits_by_authors commits author_filters).2 f x =
          true ↔
        ∃ c ∈ commits, firstMatch author_filters c =
          some (f, lowerStr f) ∧ x = authorKey c) ∧
    (∀ c ∈ commits, ∀ p, firstMatch author_filters c = some p →
      memEntry (filter_commits_by_authors commits author_filters).2 p.1
        (authorKey c) = true) ∧
    ((filter_commits_by_authors commits author_filters).1 =
      commits.filter (matchesAny author_filters)) := by
  have hrw := filter_commits_eq_foldl commits author_filters h
  have hinit : ∀ f ∈ author_filters,
      (lookupM (mkMatchDict author_filters) f).isSome = true := by
    intro f hf
    rw [lookupM_mkMatchDict _ _ hf]
    rfl
  have hmem_iff : ∀ f ∈ author_filters, ∀ x,
      memEntry (filter_commits_by_authors commits author_filters).2 f x =
          true ↔
        ∃ c ∈ commits, firstMatch author_filters c =
          some (f, lowerStr f) ∧ x = authorKey c := by
    intro f hf x
    rw [hrw, foldl_filterStep_memEntry author_filters commits []
      (mkMatchDict author_filters) f x (hinit f hf)]
    have hfalse : memEntry (mkMatchDict author_filters) f x = false := by
      simp [memEntry, lookupM_mkMatchDict _ _ hf]
    rw [hfalse]
    simp
  refine ⟨?_, ?_, hmem_iff, ?_, filter_commits_fst commits author_filters h⟩
  · intro f hf
    rw [hrw, foldl_filterStep_isSome]
    exact hinit f hf
  · intro f hf hnone
    rw [hrw, foldl_filterStep_not_chosen]
    · exact lookupM_mkMatchDict _ _ hf
    · intro c hc p hp hpf
      obtain ⟨_, _, hsub⟩ := firstMatch_spec author_filters c p hp
      rw [hpf] at hsub
      rw [hnone c hc] at hsub
      exact Bool.false_ne_true hsub
  · intro c hc p hp
    obtain ⟨hp1, hp2, _⟩ := firstMatch_spec author_filters c p hp
    rw [hmem_iff p.1 hp1 (authorKey c)]
    refine ⟨c, hc, ?_, rfl⟩
    rw [hp, ← hp2]

/-- Witness for C1 (amended) on the commit `ab <e>` and the filter list
`["a", "b"]`. -/
theorem matches_by_filter_first_wins_witness :
    (["a".data, "b".data] : List Str) ≠ [] ∧
    ((∀ f ∈ (["a".data, "b".data] : List Str),
      (lookupM (filter_commits_by_authors [cAB]
        ["a".data, "b".data]).2 f).isSome = true) ∧
    (∀ f ∈ (["a".data, "b".data] : List Str),
      (∀ c ∈ [cAB], isSubstrB (lowerStr f) (authorInfo c) = false) →
      lookupM (filter_commits_by_authors [cAB]
        ["a".data, "b".data]).2 f = some []) ∧
    (∀ f ∈ (["a".data, "b".data] : List Str), ∀ x,
      memEntry (filter_commits_by_authors [cAB]
          ["a".data, "b".data]).2 f x = true ↔
        ∃ c ∈ [cAB], firstMatch ["a".data, "b".data] c =
          some (f, lowerStr f) ∧ x = authorKey c) ∧
    (∀ c ∈ [cAB], ∀ p, firstMatch ["a".data, "b".data] c = some p →
      memEntry (filter_commits_by_authors [cAB]
        ["a".data, "b".data]).2 p.1 (authorKey c) = true) ∧
    ((filter_commits_by_authors [cAB] ["a".data, "b".data]).1 =
      List.filter (matchesAny ["a".data, "b".data]) [cAB])) :=
  ⟨by decide,
   matches_by_filter_first_wins [cAB] ["a".data, "b".data] (by decide)⟩

/-! ## Lemmas about `files_changed` -/

lemma str_ne_nil_of_not_isEmpty (a : Str) (h : ¬ a.isEmpty = true) :
    a ≠ [] := fun hn => h (by simp [hn])

lemma mem_diffPaths_ne_nil (d : DiffEntry) (p : Str)
    (hp : p ∈ diffPaths d) : p ≠ [] := by
  unfold diffPaths at hp
  rcases List.mem_append.mp hp with hm | hm
  · cases ha : d.a_path with
    | none => rw [ha] at hm; simp at hm
    | some a =>
        rw [ha] at hm
        by_cases he : a.isEmpty
        · simp [he] at hm
        · simp [he] at hm
          subst hm
          exact str_ne_nil_of_not_isEmpty _ he
  · cases hb : d.b_path with
    | none => rw [hb] at hm; simp at hm
    | some b =>
        rw [hb] at hm
        by_cases hc : (b.isEmpty || (some b == d.a_path)) = true
        · simp only [if_pos hc] at hm
          simp at hm
        · simp only [if_neg hc] at hm
          simp only [List.mem_singleton] at hm
          subst hm
          exact str_ne_nil_of_not_isEmpty p
            (fun hbe => hc (by simp [hbe]))

lemma filesChanged_ne_nil (rc : RawCommit) (p : Str)
    (hp : p ∈ filesChanged rc) : p ≠ [] := by
  unfold filesChanged at hp
  by_cases hpar : rc.hasParents
  · rw [if_pos hpar] at hp
    obtain ⟨lp, hlp, hplp⟩ := List.mem_flatten.mp hp
    obtain ⟨d, _, rfl⟩ := List.mem_map.mp hlp
    exact mem_diffPaths_ne_nil d p hplp
  · rw [if_neg hpar] at hp
    obtain ⟨it, _, hit⟩ := List.mem_filterMap.mp hp
    by_cases hcond : (it.itemType == some ("blob".data) &&
        !it.path.isEmpty) = true
    · rw [if_pos hcond] at hit
      obtain rfl := (Option.some.injEq _ _).mp hit
      simp only [Bool.and_eq_true] at hcond
      intro hnil
      have h2 := hcond.2
      rw [hnil] at h2
      simp at h2
    · rw [if_neg hcond] at hit
      exact absurd hit (by simp)

lemma toGitCommit_files (repo_name : Str) (rc : RawCommit) :
    (toGitCommit repo_name rc).files_changed = filesChanged rc := rfl

/-- C9: `files_changed` never holds an empty path (for commits built by
either retrieval loop); the contribution of one diff entry never
duplicates a path, and when the after-path equals the before-path it is
not added a second time; and for a root commit every entry comes from a
`blob` item of the commit's full tree. -/
theorem files_changed_invariants :
    (∀ (rc : RawCommit), ∀ p ∈ filesChanged rc, p ≠ []) ∧
    (∀ d : DiffEntry, (diffPaths d).Nodup) ∧
    (∀ (d : DiffEntry) (b : Str), d.b_path = some b → d.a_path = some b →
        diffPaths d = if b.isEmpty then [] else [b]) ∧
    (∀ (rc : RawCommit), rc.hasParents = false →
        ∀ p ∈ filesChanged rc, ∃ it ∈ rc.treeItems,
          it.itemType = some ("blob".data) ∧ it.path = p) ∧
    (∀ (env : GitEnv) (repo_path : Str) (since untl : Option Str)
        (l : List GitCommit),
      get_commits env repo_path since untl = .ok l →
        ∀ gc ∈ l, ∀ p ∈ gc.files_changed, p ≠ []) ∧
    (∀ (env : GitEnv) (repo_path : Str) (n : Nat) (l : List GitCommit),
      get_recent_commits_by_count env repo_path n = .ok l →
        ∀ gc ∈ l, ∀ p ∈ gc.files_changed, p ≠ []) := by
  refine ⟨filesChanged_ne_nil, ?_, ?_, ?_, ?_, ?_⟩
  · intro d
    obtain ⟨ap, bp⟩ := d
    cases ap with
    | none =>
        cases bp with
        | none => simp [diffPaths]
        | some b =>
            simp only [diffPaths]
            split_ifs <;> simp
    | some a =>
        cases bp with
        | none =>
            simp only [diffPaths]
            split_ifs <;> simp
        | some b =>
            simp only [diffPaths]
            split_ifs with h1 h2 h2
            · simp
            · simp
            · simp
            · have hba : ¬ b = a := fun hba => h2 (by simp [hba])
              rw [List.singleton_append]
              refine List.nodup_cons.mpr ⟨?_, List.nodup_singleton b⟩
              simp only [List.mem_singleton]
              exact fun hab => hba hab.symm
  · intro d b hb ha
    unfold diffPaths
    rw [hb, ha]
    by_cases he : b.isEmpty
    · simp [he]
    · simp [he]
  · intro rc hpar p hp
    unfold filesChanged at hp
    rw [hpar] at hp
    simp only [Bool.false_eq_true, if_false] at hp
    obtain ⟨it, hmem, hit⟩ := List.mem_filterMap.mp hp
    by_cases hcond : (it.itemType == some ("blob".data) &&
        !it.path.isEmpty) = true
    · rw [if_pos hcond] at hit
      obtain rfl := (Option.some.injEq _ _).mp hit
      simp only [Bool.and_eq_true] at hcond
      exact ⟨it, hmem, beq_iff_eq.mp hcond.1, rfl⟩
    · rw [if_neg hcond] at hit
      exact absurd hit (by simp)
  · intro env repo_path since untl l hl gc hgc p hp
    unfold get_commits at hl
    cases hr : env.repos repo_path with
    | none => rw [hr] at hl; exact absurd hl (by simp)
    | some r =>
        rw [hr] at hl
        obtain rfl := (Except.ok.injEq _ _).mp hl.symm
        obtain ⟨rc, _, rfl⟩ := List.mem_map.mp hgc
        rw [toGitCommit_files] at hp
        exact filesChanged_ne_nil rc p hp
  · intro env repo_path n l hl gc hgc p hp
    unfold get_recent_commits_by_count at hl
    cases hr : env.repos repo_path with
    | none => rw [hr] at hl; exact absurd hl (by simp)
    | some r =>
        rw [hr] at hl
        obtain rfl := (Except.ok.injEq _ _).mp hl.symm
        obtain ⟨rc, _, rfl⟩ := List.mem_map.mp hgc
        rw [toGitCommit_files] at hp
        exact filesChanged_ne_nil rc p hp

/-- Witness for C9: the rename diff of `rawA` yields the non-empty path
`f.txt`; a diff entry whose before- and after-paths agree contributes
that path once; and both retrieval paths of `env1` are covered. -/
theorem files_changed_invariants_witness :
    (("f.txt".data : Str) ∈ filesChanged rawA ∧ ("f.txt".data : Str) ≠ []) ∧
    (diffPaths { a_path := some ("x".data), b_path := some ("x".data) } =
      if ("x".data : Str).isEmpty then [] else [("x".data : Str)]) ∧
    (rawB.hasParents = false ∧
      ∃ it ∈ rawB.treeItems, it.itemType = some ("blob".data) ∧
        it.path = ("x.py".data)) ∧
    (("x.py".data : Str) ≠ []) :=
  ⟨⟨by decide, files_changed_invariants.1 rawA ("f.txt".data) (by decide)⟩,
   files_changed_invariants.2.2.1
     { a_path := some ("x".data), b_path := some ("x".data) } ("x".data)
     rfl rfl,
   ⟨rfl, files_changed_invariants.2.2.2.1 rawB rfl ("x.py".data)
     (by decide)⟩,
   files_changed_invariants.2.2.2.2.1 env1 ("r1".data) none none
     ((repo1.log.filter fun c => sinceOk env1 none c.committedDate &&
        untilOk env1 none c.committedDate).map
       (toGitCommit (baseName ("r1".data)))) rfl
     (toGitCommit (baseName ("r1".data)) rawB) (by decide) ("x.py".data)
     (by decide)⟩

end GitDigest
